import Mathlib

/-!
Verification of the bounded undo/redo history store of the repository
(an image-editor assignment).  The authoritative implementation is
`HIT137_Assignment3 final _Submission/history.py` (class `HistoryManager`)
together with the `ImageEditorApp` methods of
`HIT137_Assignment3 final _Submission/main.py`.

Images are modelled as pixel buffers (`List Nat`).  The value-level model
below treats `img.copy()` as the identity on values (a copy has the same
observed value); aliasing and copy-isolation are modelled separately with
an explicit heap of references further down.
-/

/-- A pixel buffer: the observed value of a numpy image array. -/
abbrev Img := List Nat

/-- `HistoryManager` from the submission's `history.py`: two stacks of
snapshots and a capacity `max_states` (Python default 20). -/
structure HistoryManager where
  max_states : Nat
  undo_stack : List Img
  redo_stack : List Img
deriving Repr, DecidableEq

namespace HistoryManager

/-- A freshly constructed manager with capacity `k` and empty stacks. -/
def mk0 (k : Nat) : HistoryManager := ⟨k, [], []⟩

/-- `clear`: empty both stacks. -/
def clear (hm : HistoryManager) : HistoryManager :=
  { hm with undo_stack := [], redo_stack := [] }

/-- `push`: if `img is None` return; else append a copy to the undo stack,
evict index 0 when the length exceeds `max_states`, and clear the redo
stack. -/
def push (hm : HistoryManager) (img : Option Img) : HistoryManager :=
  match img with
  | none => hm
  | some i =>
    let u := hm.undo_stack ++ [i]
    let u' := if u.length > hm.max_states then u.drop 1 else u
    { hm with undo_stack := u', redo_stack := [] }

/-- `can_undo`: the undo stack is non-empty. -/
def can_undo (hm : HistoryManager) : Bool :=
  hm.undo_stack.length > 0

/-- `can_redo`: the redo stack is non-empty. -/
def can_redo (hm : HistoryManager) : Bool :=
  hm.redo_stack.length > 0

/-- `undo(current)`: if nothing to undo or `current is None`, return `None`
and change nothing; else append a copy of `current` to the redo stack and
pop the last undo entry, returning it.  The Python method mutates `self`
and returns the popped state; here the updated manager is returned
alongside the result. -/
def undo (hm : HistoryManager) (current : Option Img) : HistoryManager × Option Img :=
  match current with
  | none => (hm, none)
  | some cur =>
    match hm.undo_stack.getLast? with
    | none => (hm, none)
    | some top =>
      ({ hm with undo_stack := hm.undo_stack.dropLast,
                 redo_stack := hm.redo_stack ++ [cur] }, some top)

/-- `redo(current)`: symmetric to `undo`, with the redo stack as source and
the undo stack as destination (note: no capacity check on this append, as
in the source). -/
def redo (hm : HistoryManager) (current : Option Img) : HistoryManager × Option Img :=
  match current with
  | none => (hm, none)
  | some cur =>
    match hm.redo_stack.getLast? with
    | none => (hm, none)
    | some top =>
      ({ hm with undo_stack := hm.undo_stack ++ [cur],
                 redo_stack := hm.redo_stack.dropLast }, some top)

end HistoryManager

example :
    (HistoryManager.mk0 2).push (some [1]) =
      { max_states := 2, undo_stack := [[1]], redo_stack := [] } := by decide

example :
    (((HistoryManager.mk0 2).push (some [1])).push (some [2])).push (some [3]) =
      { max_states := 2, undo_stack := [[2], [3]], redo_stack := [] } := by decide

example :
    (HistoryManager.undo ⟨2, [[1], [2]], []⟩ (some [3])) =
      (⟨2, [[1]], [[3]]⟩, some [2]) := by decide

example :
    (HistoryManager.redo ⟨2, [[1]], [[3]]⟩ (some [2])) =
      (⟨2, [[1], [2]], []⟩, some [3]) := by decide

/-!
Operation sequences on a `HistoryManager`, used to state invariants that
hold "after every operation" on a store built by the constructor.
-/

/-- One externally triggered operation on the store. -/
inductive HistOp where
  | pushOp : Option Img → HistOp
  | undoOp : Option Img → HistOp
  | redoOp : Option Img → HistOp
  | clearOp : HistOp
deriving Repr, DecidableEq

/-- Apply one operation to the store (the store part of each method). -/
def HistoryManager.apply_op (hm : HistoryManager) : HistOp → HistoryManager
  | .pushOp i => hm.push i
  | .undoOp c => (hm.undo c).1
  | .redoOp c => (hm.redo c).1
  | .clearOp => hm.clear

/-- Run a sequence of operations in order. -/
def HistoryManager.run (hm : HistoryManager) (ops : List HistOp) : HistoryManager :=
  ops.foldl HistoryManager.apply_op hm

/-!
The `ImageEditorApp` layer from the submission's `main.py`: it owns the
live current state (`current_img_bgr`), an optional source path and the
history store, and wires each edit button to "push the pre-edit state,
then replace the current state by the transform's result".  The image
transforms themselves live in an external `ImageProcessor` collaborator
(OpenCV); they are modelled as abstract functions on pixel buffers.
-/

/-- The external `ImageProcessor` collaborator of `processor.py`: opaque
per-operation transforms on buffers (their pixel arithmetic is OpenCV's
and is out of scope — the store never interprets a state's content). -/
structure ImageProcessor where
  to_gray : Img → Img
  blur_gaussian : Img → Nat → Img
  adjust_brightness : Img → Int → Img
  adjust_contrast : Img → Rat → Img

/-- The GUI application state of `main.py` that the history claims are
about: the live image, its source path, the history store, the slider
variables read by previews, and the image currently rendered on the
canvas (the target of `_render_on_canvas`). -/
structure ImageEditorApp where
  current_img_bgr : Option Img
  current_path : Option String
  history : HistoryManager
  processor : ImageProcessor
  blur_var : Nat
  brightness_var : Int
  contrast_var : Rat
  canvas_img : Option Img

namespace ImageEditorApp

/-- `_require_image`: an edit request is accepted only when an image is
loaded (otherwise `main.py` shows a warning and returns). -/
def require_image (app : ImageEditorApp) : Bool :=
  app.current_img_bgr.isSome

/-- The shared body of `apply_grayscale`, `apply_blur`, `apply_rotate`,
`apply_flip`, `apply_resize`, `apply_brightness_contrast`: check
`_require_image`, push the pre-edit current image, set the current image
to the transform's result and refresh the canvas.  The boolean reports
whether the edit was applied (false = rejected, "no image" warning). -/
def applyEdit (app : ImageEditorApp) (transform : Img → Img) : ImageEditorApp × Bool :=
  match app.current_img_bgr with
  | none => (app, false)
  | some cur =>
    let st := { app with
      history := app.history.push (some cur),
      current_img_bgr := some (transform cur),
      canvas_img := some (transform cur) }
    (st, true)

/-- The same body when the external transform may fail (raise): the push
happens first; on failure the assignment to `current_img_bgr` is never
reached, the exception propagates (boolean false) and the push is not
rolled back. -/
def applyEditFallible (app : ImageEditorApp) (transform : Img → Option Img) :
    ImageEditorApp × Bool :=
  match app.current_img_bgr with
  | none => (app, false)
  | some cur =>
    let hist := app.history.push (some cur)
    match transform cur with
    | none => ({ app with history := hist }, false)
    | some img =>
      ({ app with history := hist, current_img_bgr := some img,
                  canvas_img := some img }, true)

/-- `apply_grayscale` of `main.py`: `applyEdit` with the processor's
grayscale transform. -/
def apply_grayscale (app : ImageEditorApp) : ImageEditorApp :=
  (app.applyEdit app.processor.to_gray).1

/-- `undo` of `main.py`: if no image is loaded, return; ask the store for
the previous state; if absent, report "Nothing to undo" and keep the
current state; else adopt the returned state and refresh the display. -/
def undo (app : ImageEditorApp) : ImageEditorApp :=
  match app.current_img_bgr with
  | none => app
  | some cur =>
    match app.history.undo (some cur) with
    | (_, none) => app
    | (hist, some prev) =>
      { app with history := hist, current_img_bgr := some prev,
                 canvas_img := some prev }

/-- `redo` of `main.py`, symmetric to `undo`. -/
def redo (app : ImageEditorApp) : ImageEditorApp :=
  match app.current_img_bgr with
  | none => app
  | some cur =>
    match app.history.redo (some cur) with
    | (_, none) => app
    | (hist, some nxt) =>
      { app with history := hist, current_img_bgr := some nxt,
                 canvas_img := some nxt }

/-- `_preview_blur` of `main.py`: compute a blurred preview from the
current image and the blur slider and render it on the canvas, without
touching the current image or the history. -/
def preview_blur (app : ImageEditorApp) : ImageEditorApp :=
  match app.current_img_bgr with
  | none => app
  | some cur =>
    { app with canvas_img := some (app.processor.blur_gaussian cur app.blur_var) }

/-- `_preview_brightness_contrast` of `main.py`: render a
brightness/contrast preview from the slider values on the canvas, without
touching the current image or the history. -/
def preview_brightness_contrast (app : ImageEditorApp) : ImageEditorApp :=
  match app.current_img_bgr with
  | none => app
  | some cur =>
    let p := app.processor.adjust_brightness cur app.brightness_var
    { app with canvas_img := some (app.processor.adjust_contrast p app.contrast_var) }

end ImageEditorApp

/-!
Reference-level model for the snapshot-isolation claim.  A heap maps
references (allocation order numbers) to buffer values; `numpy.copy()`
allocates a fresh reference holding the same value.  The store's stacks
hold references into the heap, so "shares storage" is expressible.
-/

/-- A heap of image buffers: `next` is the next fresh reference, `data`
the value stored at each reference. -/
structure Heap where
  next : Nat
  data : Nat → Img

/-- Read the buffer value a reference currently holds. -/
def Heap.read (h : Heap) (r : Nat) : Img := h.data r

/-- In-place mutation of the buffer behind reference `r`. -/
def Heap.write (h : Heap) (r : Nat) (v : Img) : Heap :=
  { h with data := Function.update h.data r v }

/-- `img.copy()`: allocate a fresh reference holding the value read from
`r`; returns the new reference and the extended heap. -/
def Heap.copy (h : Heap) (r : Nat) : Nat × Heap :=
  (h.next, { next := h.next + 1, data := Function.update h.data h.next (h.data r) })

/-- `HistoryManager` with stacks of references instead of values, so that
aliasing between stored snapshots and the live image is observable. -/
structure RefHistoryManager where
  max_states : Nat
  undo_stack : List Nat
  redo_stack : List Nat
deriving Repr, DecidableEq

/-- `push` at the reference level: copy the argument buffer, append the
fresh reference, evict index 0 on overflow, clear the redo stack. -/
def RefHistoryManager.push (hm : RefHistoryManager) (img : Option Nat) (h : Heap) :
    RefHistoryManager × Heap :=
  match img with
  | none => (hm, h)
  | some r =>
    let ch := h.copy r
    let u := hm.undo_stack ++ [ch.1]
    let u' := if u.length > hm.max_states then u.drop 1 else u
    ({ hm with undo_stack := u', redo_stack := [] }, ch.2)

/-!
Shared helper lemmas.
-/

/-- A push of a present state always leaves the redo stack empty. -/
theorem push_some_redo_stack (hm : HistoryManager) (i : Img) :
    (hm.push (some i)).redo_stack = [] := by
  simp [HistoryManager.push]

/-- With a positive capacity, the state pushed last is on top of the undo
stack even when the push evicted the oldest entry. -/
theorem push_some_getLast (hm : HistoryManager) (i : Img)
    (hk : 1 ≤ hm.max_states) :
    (hm.push (some i)).undo_stack.getLast? = some i := by
  unfold HistoryManager.push
  simp only
  split
  · rename_i hgt
    cases hu : hm.undo_stack with
    | nil => simp [hu] at hgt; omega
    | cons b t =>
      rw [List.cons_append, List.drop_one, List.tail_cons]
      exact List.getLast?_concat t
  · exact List.getLast?_concat _

/-- An edit applied while an image is present leaves an empty redo stack
(the push cleared it). -/
theorem applyEdit_redo_stack (app : ImageEditorApp) (f : Img → Img) (cur : Img)
    (hcur : app.current_img_bgr = some cur) :
    (app.applyEdit f).1.history.redo_stack = [] := by
  simp [ImageEditorApp.applyEdit, hcur, push_some_redo_stack]

/-- The app-level `undo` keeps an image present whenever one was present
(either it adopts the returned state or it reports "nothing to undo"). -/
theorem app_undo_present (app : ImageEditorApp) (cur : Img)
    (hcur : app.current_img_bgr = some cur) :
    ∃ c, app.undo.current_img_bgr = some c := by
  rcases hu : app.history.undo (some cur) with ⟨hist, opt⟩
  cases opt with
  | none => exact ⟨cur, by simp [ImageEditorApp.undo, hcur, hu]⟩
  | some prev => exact ⟨prev, by simp [ImageEditorApp.undo, hcur, hu]⟩

/-!
Claim theorems.
-/

/-- C1: Undo/redo round-trip — whenever `undo` on a present current state
returns a state, immediately calling `redo` on the successor store with
the adopted state yields a current state value-equal to the one held
before the `undo` call. -/
theorem C1_undo_redo_roundtrip (hm hm' : HistoryManager) (cur prev : Img)
    (h : hm.undo (some cur) = (hm', some prev)) :
    (hm'.redo (some prev)).2 = some cur := by
  unfold HistoryManager.undo at h
  cases hlast : hm.undo_stack.getLast? with
  | none => rw [hlast] at h; simp at h
  | some top =>
    rw [hlast] at h
    have hhm : hm' = { hm with undo_stack := hm.undo_stack.dropLast,
                               redo_stack := hm.redo_stack ++ [cur] } :=
      (Prod.mk.injEq .. ▸ h).1.symm
    subst hhm
    simp [HistoryManager.redo, List.getLast?_concat]

/-- C1 witness: a concrete round trip on capacity 2 with undo stack
`[[1],[2]]`, redo stack `[]` and current state `[3]`. -/
theorem C1_undo_redo_roundtrip_witness :
    ((⟨2, [[1]], [[3]]⟩ : HistoryManager).redo (some [2])).2 = some ([3] : Img) :=
  C1_undo_redo_roundtrip ⟨2, [[1], [2]], []⟩ ⟨2, [[1]], [[3]]⟩ [3] [2] (by decide)

/-- C2: the `undo` contract — with an empty undo stack or an absent
current state it returns absent and changes nothing; otherwise it appends
a copy of the current state to the redo stack and pops and returns the
most recently pushed undo entry. -/
theorem C2_undo_contract (hm : HistoryManager) (current : Option Img) :
    ((hm.undo_stack = [] ∨ current = none) → hm.undo current = (hm, none))
    ∧ ∀ cur top, current = some cur → hm.undo_stack.getLast? = some top →
        hm.undo current =
          ({ hm with undo_stack := hm.undo_stack.dropLast,
                     redo_stack := hm.redo_stack ++ [cur] }, some top) := by
  constructor
  · intro h
    cases hc : current with
    | none => rfl
    | some cur =>
      rcases h with h | h
      · simp [HistoryManager.undo, List.getLast?_eq_none_iff.mpr h]
      · rw [hc] at h; exact absurd h (by simp)
  · intro cur top hc htop
    subst hc
    simp [HistoryManager.undo, htop]

/-- C2 witness: the non-empty branch of the contract at undo stack
`[[1],[2]]`, redo stack `[[9]]`, current state `[3]`. -/
theorem C2_undo_contract_witness :
    (⟨2, [[1], [2]], [[9]]⟩ : HistoryManager).undo (some [3]) =
      (⟨2, [[1]], [[9], [3]]⟩, some [2]) := by
  have h := (C2_undo_contract ⟨2, [[1], [2]], [[9]]⟩ (some [3])).2 [3] [2] rfl (by decide)
  simpa using h

/-- C4: branch invalidation — pushing a present state clears the redo
stack, so an `undo` followed by a new applied edit leaves `can_redo`
false. -/
theorem C4_branch_invalidation (hm : HistoryManager) (img : Img)
    (app : ImageEditorApp) (f : Img → Img) (cur : Img)
    (hcur : app.current_img_bgr = some cur) :
    (hm.push (some img)).redo_stack = []
    ∧ (hm.push (some img)).can_redo = false
    ∧ (app.undo.applyEdit f).1.history.can_redo = false := by
  refine ⟨push_some_redo_stack hm img, ?_, ?_⟩
  · simp [HistoryManager.can_redo, push_some_redo_stack]
  · obtain ⟨c, hc⟩ := app_undo_present app cur hcur
    simp [HistoryManager.can_redo, applyEdit_redo_stack app.undo f c hc]

/-- C4 witness: a concrete app with one undo entry and one redo entry;
after `undo` then a new edit, `can_redo` is false. -/
theorem C4_branch_invalidation_witness :
    (({ current_img_bgr := some [3], current_path := none,
        history := ⟨2, [[1]], [[9]]⟩,
        processor := ⟨id, fun i _ => i, fun i _ => i, fun i _ => i⟩,
        blur_var := 0, brightness_var := 0, contrast_var := 1,
        canvas_img := none : ImageEditorApp }).undo.applyEdit id).1.history.can_redo
      = false :=
  (C4_branch_invalidation ⟨2, [], []⟩ [0] _ id [3] rfl).2.2

/-- C6: pushing an absent state is a no-op — the store is returned with
every attribute exactly as it was. -/
theorem C6_push_none_noop (hm : HistoryManager) : hm.push none = hm := rfl

/-- C7: the `applyEdit` contract — with no image loaded the request is
rejected and nothing changes; with an image loaded the pre-edit value is
pushed to the history store and the current state becomes the transform
of the pre-edit value. -/
theorem C7_applyEdit_contract (app : ImageEditorApp) (f : Img → Img) :
    (app.current_img_bgr = none → app.applyEdit f = (app, false))
    ∧ ∀ cur, app.current_img_bgr = some cur →
        (app.applyEdit f).2 = true
        ∧ (app.applyEdit f).1.history = app.history.push (some cur)
        ∧ (app.applyEdit f).1.current_img_bgr = some (f cur)
        ∧ (app.applyEdit f).1.current_path = app.current_path := by
  constructor
  · intro h
    simp [ImageEditorApp.applyEdit, h]
  · intro cur hcur
    simp [ImageEditorApp.applyEdit, hcur]

/-- C7 witness: the loaded branch of the contract at a concrete app with
current image `[3]` and transform `reverse`. -/
theorem C7_applyEdit_contract_witness :
    (({ current_img_bgr := some [3, 4], current_path := some "p",
        history := ⟨2, [[1]], [[9]]⟩,
        processor := ⟨id, fun i _ => i, fun i _ => i, fun i _ => i⟩,
        blur_var := 0, brightness_var := 0, contrast_var := 1,
        canvas_img := none : ImageEditorApp }).applyEdit List.reverse).1.current_img_bgr
      = some [4, 3] :=
  ((C7_applyEdit_contract _ List.reverse).2 [3, 4] rfl).2.2.1

/-- C8: a push survives a failed edit — when the transform fails after
the pre-edit snapshot was pushed, the push is not rolled back: the
snapshot stays on top of the undo stack and a subsequent `undo` on the
(unchanged) current state returns the exact pre-edit state. -/
theorem C8_push_survives_failed_edit (app : ImageEditorApp) (cur : Img)
    (f : Img → Option Img) (hcur : app.current_img_bgr = some cur)
    (hfail : f cur = none) (hk : 1 ≤ app.history.max_states) :
    (app.applyEditFallible f).2 = false
    ∧ (app.applyEditFallible f).1.history = app.history.push (some cur)
    ∧ (app.applyEditFallible f).1.current_img_bgr = some cur
    ∧ (app.applyEditFallible f).1.history.undo_stack.getLast? = some cur
    ∧ ((app.applyEditFallible f).1.history.undo
        ((app.applyEditFallible f).1.current_img_bgr)).2 = some cur := by
  have hres : app.applyEditFallible f =
      ({ app with history := app.history.push (some cur) }, false) := by
    simp [ImageEditorApp.applyEditFallible, hcur, hfail]
  rw [hres]
  refine ⟨rfl, rfl, hcur, push_some_getLast app.history cur hk, ?_⟩
  simp only [hcur]
  simp [HistoryManager.undo, push_some_getLast app.history cur hk]

/-- C8 witness: a concrete app whose transform always fails; after the
failed edit, undoing returns the pre-edit image `[3]`. -/
theorem C8_push_survives_failed_edit_witness :
    (({ current_img_bgr := some [3], current_path := none,
        history := ⟨2, [[1], [2]], [[9]]⟩,
        processor := ⟨id, fun i _ => i, fun i _ => i, fun i _ => i⟩,
        blur_var := 0, brightness_var := 0, contrast_var := 1,
        canvas_img := none : ImageEditorApp }).applyEditFallible
          (fun _ => none)).1.history.undo_stack.getLast? = some [3] :=
  (C8_push_survives_failed_edit _ [3] (fun _ => none) rfl rfl (by decide)).2.2.2.1

/-- C9: conservation — a successful `undo` or `redo` (non-empty source
stack, present current state) moves exactly one snapshot, leaving the
combined size of the two stacks unchanged. -/
theorem C9_undo_redo_conservation (hm : HistoryManager) (cur : Img) :
    (hm.undo_stack ≠ [] →
      (hm.undo (some cur)).1.undo_stack.length + (hm.undo (some cur)).1.redo_stack.length
        = hm.undo_stack.length + hm.redo_stack.length)
    ∧ (hm.redo_stack ≠ [] →
      (hm.redo (some cur)).1.undo_stack.length + (hm.redo (some cur)).1.redo_stack.length
        = hm.undo_stack.length + hm.redo_stack.length) := by
  constructor
  · intro hne
    have hpos : 0 < hm.undo_stack.length := List.length_pos.mpr hne
    obtain ⟨top, htop⟩ : ∃ t, hm.undo_stack.getLast? = some t := by
      cases h : hm.undo_stack.getLast? with
      | none => exact absurd (List.getLast?_eq_none_iff.mp h) hne
      | some t => exact ⟨t, rfl⟩
    simp [HistoryManager.undo, htop]
    omega
  · intro hne
    have hpos : 0 < hm.redo_stack.length := List.length_pos.mpr hne
    obtain ⟨top, htop⟩ : ∃ t, hm.redo_stack.getLast? = some t := by
      cases h : hm.redo_stack.getLast? with
      | none => exact absurd (List.getLast?_eq_none_iff.mp h) hne
      | some t => exact ⟨t, rfl⟩
    simp [HistoryManager.redo, htop]
    omega

/-- C9 witness: conservation at a concrete store with one entry in each
stack. -/
theorem C9_undo_redo_conservation_witness :
    ((⟨2, [[1]], [[9]]⟩ : HistoryManager).undo (some [3])).1.undo_stack.length
      + ((⟨2, [[1]], [[9]]⟩ : HistoryManager).undo (some [3])).1.redo_stack.length
      = 2 := by
  have h := (C9_undo_redo_conservation ⟨2, [[1]], [[9]]⟩ [3]).1 (by decide)
  simpa using h

/-- C10: the slider previews are effect-free on the core state — neither
`_preview_blur` nor `_preview_brightness_contrast` changes the current
image, the source path, or either history stack (they only re-render the
canvas). -/
theorem C10_previews_effect_free (app : ImageEditorApp) :
    app.preview_blur.current_img_bgr = app.current_img_bgr
    ∧ app.preview_blur.current_path = app.current_path
    ∧ app.preview_blur.history = app.history
    ∧ app.preview_brightness_contrast.current_img_bgr = app.current_img_bgr
    ∧ app.preview_brightness_contrast.current_path = app.current_path
    ∧ app.preview_brightness_contrast.history = app.history := by
  cases h : app.current_img_bgr with
  | none =>
    simp [ImageEditorApp.preview_blur, ImageEditorApp.preview_brightness_contrast, h]
  | some cur =>
    simp [ImageEditorApp.preview_blur, ImageEditorApp.preview_brightness_contrast, h]

/-!
Capacity-bound machinery for C3: the sum of the two stack lengths never
exceeds the capacity on any store built by the constructor, and a run of
pushes keeps exactly the most recent `capacity` states.
-/

/-- The inductive invariant behind the capacity bound: the capacity field
is the construction-time `k` and the stacks jointly hold at most `k`
snapshots. -/
def histInv (hm : HistoryManager) (k : Nat) : Prop :=
  hm.max_states = k ∧ hm.undo_stack.length + hm.redo_stack.length ≤ k

/-- Every single operation preserves the capacity invariant. -/
theorem histInv_apply_op (hm : HistoryManager) (k : Nat) (op : HistOp)
    (h : histInv hm k) : histInv (hm.apply_op op) k := by
  obtain ⟨hmax, hsum⟩ := h
  cases op with
  | pushOp i =>
    cases i with
    | none => exact ⟨hmax, hsum⟩
    | some img =>
      simp only [HistoryManager.apply_op, HistoryManager.push]
      constructor
      · exact hmax
      · simp only [List.length_nil, Nat.add_zero]
        split
        · rename_i hgt
          simp only [List.length_drop, List.length_append, List.length_cons,
            List.length_nil] at hgt ⊢
          omega
        · rename_i hle
          simp only [List.length_append, List.length_cons, List.length_nil] at hle ⊢
          omega
  | undoOp c =>
    cases c with
    | none => exact ⟨hmax, hsum⟩
    | some cur =>
      simp only [HistoryManager.apply_op, HistoryManager.undo]
      cases htop : hm.undo_stack.getLast? with
      | none => exact ⟨hmax, hsum⟩
      | some top =>
        have hne : hm.undo_stack ≠ [] := by
          intro hnil
          rw [List.getLast?_eq_none_iff.mpr hnil] at htop
          exact Option.noConfusion htop
        have hpos : 0 < hm.undo_stack.length := List.length_pos.mpr hne
        refine ⟨hmax, ?_⟩
        simp only [List.length_dropLast, List.length_append, List.length_cons,
          List.length_nil]
        omega
  | redoOp c =>
    cases c with
    | none => exact ⟨hmax, hsum⟩
    | some cur =>
      simp only [HistoryManager.apply_op, HistoryManager.redo]
      cases htop : hm.redo_stack.getLast? with
      | none => exact ⟨hmax, hsum⟩
      | some top =>
        have hne : hm.redo_stack ≠ [] := by
          intro hnil
          rw [List.getLast?_eq_none_iff.mpr hnil] at htop
          exact Option.noConfusion htop
        have hpos : 0 < hm.redo_stack.length := List.length_pos.mpr hne
        refine ⟨hmax, ?_⟩
        simp only [List.length_dropLast, List.length_append, List.length_cons,
          List.length_nil]
        omega
  | clearOp =>
    exact ⟨hmax, by simp [HistoryManager.apply_op, HistoryManager.clear]⟩

/-- Every run of operations preserves the capacity invariant. -/
theorem histInv_run (k : Nat) (ops : List HistOp) :
    ∀ hm : HistoryManager, histInv hm k → histInv (hm.run ops) k := by
  induction ops with
  | nil => intro hm h; exact h
  | cons op ops ih =>
    intro hm h
    exact ih (hm.apply_op op) (histInv_apply_op hm k op h)

/-- A run of pushes of present states keeps exactly the suffix of the
pushed sequence that fits the capacity: starting from a stack within
capacity, the resulting undo stack is the old stack followed by the
pushed states, truncated in front to the last `capacity` entries. -/
theorem run_pushes_undo_stack (k : Nat) (imgs : List Img) :
    ∀ hm : HistoryManager, hm.max_states = k → hm.undo_stack.length ≤ k →
      (hm.run (imgs.map (fun i => HistOp.pushOp (some i)))).undo_stack
        = (hm.undo_stack ++ imgs).drop ((hm.undo_stack ++ imgs).length - k) := by
  induction imgs with
  | nil =>
    intro hm hmax hlen
    simp only [List.map_nil, HistoryManager.run, List.foldl_nil, List.append_nil]
    rw [Nat.sub_eq_zero_of_le hlen, List.drop_zero]
  | cons a imgs ih =>
    intro hm hmax hlen
    simp only [List.map_cons, HistoryManager.run, List.foldl_cons]
    have hstep : (hm.apply_op (HistOp.pushOp (some a))).undo_stack
        = (hm.undo_stack ++ [a]).drop ((hm.undo_stack ++ [a]).length - k) := by
      simp only [HistoryManager.apply_op, HistoryManager.push, hmax]
      split
      · rename_i hgt
        simp only [List.length_append, List.length_cons, List.length_nil] at hgt ⊢
        have : hm.undo_stack.length + (0 + 1) - k = 1 := by omega
        rw [this]
      · rename_i hle
        simp only [List.length_append, List.length_cons, List.length_nil,
          Nat.not_lt] at hle ⊢
        have : hm.undo_stack.length + (0 + 1) - k = 0 := by omega
        rw [this, List.drop_zero]
    have hmax' : (hm.apply_op (HistOp.pushOp (some a))).max_states = k := by
      simp [HistoryManager.apply_op, HistoryManager.push, hmax]
    have hlen' : (hm.apply_op (HistOp.pushOp (some a))).undo_stack.length ≤ k := by
      rw [hstep]
      simp only [List.length_drop, List.length_append, List.length_cons, List.length_nil]
      omega
    have := ih (hm.apply_op (HistOp.pushOp (some a))) hmax' hlen'
    rw [HistoryManager.run] at this
    rw [this, hstep]
    by_cases hk : hm.undo_stack.length + 1 ≤ k
    · have h0 : (hm.undo_stack ++ [a]).length - k = 0 := by
        simp only [List.length_append, List.length_cons, List.length_nil]
        omega
      rw [h0, List.drop_zero, List.append_assoc, List.cons_append, List.nil_append]
    · have h1 : (hm.undo_stack ++ [a]).length - k = 1 := by
        simp only [List.length_append, List.length_cons, List.length_nil]
        omega
      rw [h1]
      have hdrop : ((hm.undo_stack ++ [a]) ++ imgs).drop 1
          = (hm.undo_stack ++ [a]).drop 1 ++ imgs :=
        List.drop_append_of_le_length (by
          simp only [List.length_append, List.length_cons, List.length_nil]
          omega)
      rw [← hdrop, List.append_assoc, List.cons_append, List.nil_append, List.drop_drop]
      have harith : ∀ n : Nat, k + 1 ≤ n → 1 + (n - 1 - k) = n - k := by
        intro n hn; omega
      have hlen2 : k + 1 ≤ (hm.undo_stack ++ a :: imgs).length := by
        simp only [List.length_append, List.length_cons]
        omega
      rw [List.length_drop]
      rw [harith (hm.undo_stack ++ a :: imgs).length hlen2]

/-- C3: capacity bound — after any operation sequence on a store built
with capacity `k` the undo stack holds at most `k` entries; a push onto a
full stack evicts exactly the oldest entry (index 0); and after `k + 5`
sequential pushes the undo stack is exactly the pushed sequence minus its
5 oldest states, hence has length `k`. -/
theorem C3_capacity_bound (k : Nat) (ops : List HistOp) (imgs : List Img)
    (hlen : imgs.length = k + 5) :
    ((HistoryManager.mk0 k).run ops).undo_stack.length ≤ k
    ∧ (∀ hm : HistoryManager, ∀ img : Img, hm.max_states = k →
        hm.undo_stack.length = k →
        (hm.push (some img)).undo_stack = (hm.undo_stack ++ [img]).drop 1)
    ∧ ((HistoryManager.mk0 k).run (imgs.map (fun i => HistOp.pushOp (some i)))).undo_stack
        = imgs.drop 5
    ∧ ((HistoryManager.mk0 k).run (imgs.map (fun i => HistOp.pushOp (some i)))).undo_stack.length
        = k := by
  have hinv0 : histInv (HistoryManager.mk0 k) k := ⟨rfl, by simp [HistoryManager.mk0]⟩
  have hrun := run_pushes_undo_stack k imgs (HistoryManager.mk0 k) rfl
    (by simp [HistoryManager.mk0])
  rw [show (HistoryManager.mk0 k).undo_stack = [] from rfl, List.nil_append] at hrun
  refine ⟨?_, ?_, ?_, ?_⟩
  · have h := (histInv_run k ops (HistoryManager.mk0 k) hinv0).2
    omega
  · intro hm img hmax hfull
    simp only [HistoryManager.push, hmax]
    have hgt : (hm.undo_stack ++ [img]).length > k := by
      simp only [List.length_append, List.length_cons, List.length_nil]
      omega
    rw [if_pos hgt]
  · rw [hrun, hlen]
    congr 1
    omega
  · rw [hrun]
    simp only [List.length_drop]
    omega

/-- C3 witness: capacity 2, seven pushes — the stack keeps the last two
pushed states and the five oldest are gone. -/
theorem C3_capacity_bound_witness :
    ((HistoryManager.mk0 2).run
        ([[1], [2], [3], [4], [5], [6], [7]].map
          (fun i => HistOp.pushOp (some i)))).undo_stack = [[6], [7]] := by
  have h := (C3_capacity_bound 2 [] [[1], [2], [3], [4], [5], [6], [7]] rfl).2.2.1
  simpa using h

/-- With a positive capacity, the reference pushed last is on top of the
reference-level undo stack even when the push evicted the oldest entry. -/
theorem ref_push_getLast (hm : RefHistoryManager) (r : Nat) (h : Heap)
    (hk : 1 ≤ hm.max_states) :
    ((hm.push (some r) h).1).undo_stack.getLast? = some (h.copy r).1 := by
  unfold RefHistoryManager.push
  simp only
  split
  · rename_i hgt
    cases hu : hm.undo_stack with
    | nil => simp [hu] at hgt; omega
    | cons b t =>
      rw [List.cons_append, List.drop_one, List.tail_cons]
      exact List.getLast?_concat t
  · exact List.getLast?_concat _

/-- C5: snapshot isolation — the entry a push stores is a freshly
allocated copy: it sits on top of the undo stack (the redo stack is
cleared), its reference differs from the live current reference, it holds
the value the current state had at push time, and an in-place write to
the current buffer never changes the stored snapshot's observed value,
nor does a write to the snapshot change the current buffer's value. -/
theorem C5_snapshot_isolation (hm : RefHistoryManager) (h : Heap) (r : Nat)
    (hr : r < h.next) (hk : 1 ≤ hm.max_states) :
    ∃ c,
      ((hm.push (some r) h).1).undo_stack.getLast? = some c
      ∧ ((hm.push (some r) h).1).redo_stack = []
      ∧ c ≠ r
      ∧ ((hm.push (some r) h).2).read c = h.read r
      ∧ (∀ v, (((hm.push (some r) h).2).write r v).read c
            = ((hm.push (some r) h).2).read c)
      ∧ (∀ v, (((hm.push (some r) h).2).write c v).read r
            = ((hm.push (some r) h).2).read r) := by
  have hcr : (h.copy r).1 = h.next := rfl
  have hne : h.next ≠ r := by omega
  refine ⟨h.next, ?_, ?_, ?_, ?_, ?_, ?_⟩
  · rw [← hcr]; exact ref_push_getLast hm r h hk
  · simp [RefHistoryManager.push]
  · omega
  · show (Function.update h.data h.next (h.data r)) h.next = h.data r
    exact Function.update_same h.next (h.data r) h.data
  · intro v
    show Function.update (Function.update h.data h.next (h.data r)) r v h.next
        = Function.update h.data h.next (h.data r) h.next
    rw [Function.update_noteq hne]
  · intro v
    show Function.update (Function.update h.data h.next (h.data r)) h.next v r
        = Function.update h.data h.next (h.data r) r
    rw [Function.update_noteq (Ne.symm hne), Function.update_noteq (Ne.symm hne)]

/-- C5 witness: a one-cell heap holding the buffer `[7]` at reference 0;
the pushed snapshot lands at reference 1, and overwriting the current
buffer (reference 0) with `[9]` leaves the snapshot's observed value
unchanged. -/
theorem C5_snapshot_isolation_witness :
    ((((⟨3, [], []⟩ : RefHistoryManager).push (some 0)
        ⟨1, fun _ => [7]⟩).2).write 0 [9]).read 1
      = (((⟨3, [], []⟩ : RefHistoryManager).push (some 0)
        ⟨1, fun _ => [7]⟩).2).read 1 := by
  obtain ⟨c, h1, h2, h3, h4, h5, h6⟩ :=
    C5_snapshot_isolation ⟨3, [], []⟩ ⟨1, fun _ => [7]⟩ 0 (by decide) (by decide)
  have hv : (((⟨3, [], []⟩ : RefHistoryManager).push (some 0)
      ⟨1, fun _ => [7]⟩).1).undo_stack.getLast? = some 1 := by decide
  rw [hv] at h1
  have hc : c = 1 := (Option.some.inj h1).symm
  rw [hc] at h5
  exact h5 [9]

